import Mathlib

/-!
Verification of the Pen Testing interactive judge
(`codejam/2020/round_3/pen_testing/output_validators/validator/judge.py`).

The Python source is shallowly embedded below: Python `int` values are
modelled as `Int`, byte strings as `List Nat` (each entry `< 256`),
text as `String` / `List Char`, exceptions as `Except` / `Option`, and
the mutable per-case state of `RunCases` as explicit state passing.
-/

deriving instance DecidableEq for Except

namespace PenJudge

/-! ## Decimal rendering (model of Python `str` on `int`) -/

/-- Character for a single decimal digit (`d < 10`). -/
def digitChar (d : Nat) : Char :=
  match d with
  | 0 => '0' | 1 => '1' | 2 => '2' | 3 => '3' | 4 => '4'
  | 5 => '5' | 6 => '6' | 7 => '7' | 8 => '8' | 9 => '9'
  | _ => '*'

/-- Big-endian decimal digits of `n`, with explicit fuel (fuel `n+1` suffices). -/
def natDigits : Nat → Nat → List Char
  | 0, _ => []
  | f + 1, n => if n < 10 then [digitChar n] else natDigits f (n / 10) ++ [digitChar (n % 10)]

/-- Decimal rendering of a natural number, as Python `str` does. -/
def renderNat (n : Nat) : String := String.mk (natDigits (n + 1) n)

/-- Decimal rendering of an integer (char list), as Python `str` does. -/
def renderIntChars (v : Int) : List Char :=
  if v < 0 then '-' :: natDigits ((-v).toNat + 1) (-v).toNat
  else natDigits (v.toNat + 1) v.toNat

/-- Decimal rendering of an integer, as Python `str` does. -/
def renderInt (v : Int) : String := String.mk (renderIntChars v)

/-! ## Integer parsing (model of Python `int(s)`)

Python `int(s)` on a whitespace-free token accepts an optional sign
followed by one or more decimal digits (leading zeros allowed) and
raises `ValueError` otherwise; exotic forms (underscore separators,
non-ASCII digits) do not occur in this protocol and are not modelled. -/

/-- Numeric value of a decimal digit character. -/
def charVal (c : Char) : Nat := c.toNat - 48

/-- Accumulate decimal digits; fails on a non-digit character. -/
def goDigits : List Char → Nat → Option Nat
  | [], acc => some acc
  | c :: cs, acc => if c.isDigit then goDigits cs (acc * 10 + charVal c) else none

/-- Parse a nonempty all-digit string. -/
def parseDigits (l : List Char) : Option Nat :=
  if l.isEmpty then none else goDigits l 0

/-- Model of Python `int(token)` for a whitespace-free token. -/
def pyIntOfChars : List Char → Option Int
  | [] => none
  | c :: cs =>
    if c = '-' then (parseDigits cs).map (fun m => -(Int.ofNat m))
    else if c = '+' then (parseDigits cs).map (fun m => Int.ofNat m)
    else (parseDigits (c :: cs)).map (fun m => Int.ofNat m)

/-! ## Whitespace splitting (model of Python `str.split()`) -/

/-- Whitespace characters recognised by Python `str.split()`. -/
def pyIsSpace (c : Char) : Bool :=
  c = ' ' || c = '\t' || c = '\n' || c = '\r' || c = '\x0b' || c = '\x0c'

/-- Split on runs of whitespace, discarding empty tokens; `acc` holds the
current token reversed. -/
def pySplitAux : List Char → List Char → List (List Char)
  | [], acc => if acc.isEmpty then [] else [acc.reverse]
  | c :: cs, acc =>
    if pyIsSpace c then
      if acc.isEmpty then pySplitAux cs [] else acc.reverse :: pySplitAux cs []
    else pySplitAux cs (c :: acc)

/-- Model of Python `line.split()`. -/
def pySplit (l : List Char) : List (List Char) := pySplitAux l []

/-- Model of Python slicing `s[:k]` on strings. -/
def strTake (s : String) (k : Nat) : String := String.mk (s.toList.take k)

/-! ## Error message constants (from judge.py lines 26-34) -/

def WRONG_NUM_TOKENS_ERROR (expected found : Nat) : String :=
  "Wrong number of tokens: expected " ++ renderNat expected ++ ", found " ++ renderNat found ++ "."

def NOT_INTEGER_ERROR (s : String) : String := "Not an integer: " ++ s ++ "."

def INVALID_LINE_ERROR : String := "Couldn't read a valid line."

def ADDITIONAL_INPUT_ERROR (s : String) : String :=
  "Additional input after all cases finish: " ++ s ++ "."

def OUT_OF_BOUNDS_ERROR (v : Int) : String := "Request out of bounds: " ++ renderInt v ++ "."

def TOO_MANY_ROUNDS_ERROR : String := "Too many rounds"

def SAME_PEN_TWICE_ERROR : String := "Taking the same pen twice"

def TOO_FEW_CORRECT_ERROR (c : Nat) : String :=
  "Too few correct answers: " ++ renderNat c ++ "."

/-! ## ReadValues (judge.py lines 69-80) -/

/-- Parse each token as an integer; first failing token raises
`NOT_INTEGER_ERROR` with the token truncated to 100 characters. -/
def parseTokens : List (List Char) → Except String (List Int)
  | [] => .ok []
  | s :: ss =>
    match pyIntOfChars s with
    | none => .error (NOT_INTEGER_ERROR (String.mk (s.take 100)))
    | some v => (parseTokens ss).map (fun r => v :: r)

/-- Embedding of `ReadValues(line, num_tokens)`. -/
def ReadValues (line : String) (numTokens : Nat) : Except String (List Int) :=
  if (pySplit line.toList).length ≠ numTokens then
    .error (WRONG_NUM_TOKENS_ERROR numTokens (pySplit line.toList).length)
  else parseTokens (pySplit line.toList)

/-! ## SHA-256 (model of Python `hashlib.sha256`, FIPS 180-4)

Bytes are `Nat`s below 256; words are `Nat`s below `2^32`. -/

/-- Truncate to 32 bits. -/
def m32 (x : Nat) : Nat := x % 4294967296

/-- Rotate a 32-bit word right by `r`. -/
def rotr32 (r x : Nat) : Nat := m32 ((x >>> r) ||| (x <<< (32 - r)))

def bsig0 (x : Nat) : Nat := rotr32 2 x ^^^ rotr32 13 x ^^^ rotr32 22 x
def bsig1 (x : Nat) : Nat := rotr32 6 x ^^^ rotr32 11 x ^^^ rotr32 25 x
def ssig0 (x : Nat) : Nat := rotr32 7 x ^^^ rotr32 18 x ^^^ (x >>> 3)
def ssig1 (x : Nat) : Nat := rotr32 17 x ^^^ rotr32 19 x ^^^ (x >>> 10)
def chf (x y z : Nat) : Nat := (x &&& y) ^^^ ((x ^^^ 4294967295) &&& z)
def majf (x y z : Nat) : Nat := (x &&& y) ^^^ (x &&& z) ^^^ (y &&& z)

/-- The 64 SHA-256 round constants (FIPS 180-4, in decimal). -/
def sha256K : List Nat :=
  [1116352408, 1899447441, 3049323471, 3921009573, 961987163, 1508970993,
   2453635748, 2870763221, 3624381080, 310598401, 607225278, 1426881987,
   1925078388, 2162078206, 2614888103, 3248222580, 3835390401, 4022224774,
   264347078, 604807628, 770255983, 1249150122, 1555081692, 1996064986,
   2554220882, 2821834349, 2952996808, 3210313671, 3336571891, 3584528711,
   113926993, 338241895, 666307205, 773529912, 1294757372, 1396182291,
   1695183700, 1986661051, 2177026350, 2456956037, 2730485921, 2820302411,
   3259730800, 3345764771, 3516065817, 3600352804, 4094571909, 275423344,
   430227734, 506948616, 659060556, 883997877, 958139571, 1322822218,
   1537002063, 1747873779, 1955562222, 2024104815, 2227730452, 2361852424,
   2428436474, 2756734187, 3204031479, 3329325298]

/-- The SHA-256 initial hash value (FIPS 180-4, in decimal). -/
def sha256H0 : List Nat :=
  [1779033703, 3144134277, 1013904242, 2773480762,
   1359893119, 2600822924, 528734635, 1541459225]

/-- Big-endian byte encoding of `v` into `len` bytes (truncating above). -/
def natToBytesBE (len v : Nat) : List Nat :=
  (List.range len).map (fun i => (v >>> (8 * (len - 1 - i))) % 256)

/-- Big-endian byte decoding (model of Python `int.from_bytes(-, 'big')`). -/
def bytesToNatBE (l : List Nat) : Nat := l.foldl (fun acc b => acc * 256 + b) 0

/-- Group bytes into big-endian 32-bit words. -/
def bytesToWords : List Nat → List Nat
  | b0 :: b1 :: b2 :: b3 :: rest => (((b0 * 256 + b1) * 256 + b2) * 256 + b3) :: bytesToWords rest
  | _ => []

/-- Extend the 16 block words to the 64-entry message schedule. -/
def extendSchedule (ws : List Nat) : List Nat :=
  (List.range 48).foldl
    (fun acc _ =>
      let t := acc.length
      acc ++ [m32 (ssig1 (acc.getD (t - 2) 0) + acc.getD (t - 7) 0 +
                   ssig0 (acc.getD (t - 15) 0) + acc.getD (t - 16) 0)])
    ws

/-- One SHA-256 compression round; state is `(a,b,c,d,e,f,g,h)`. -/
def compressStep (st : Nat × Nat × Nat × Nat × Nat × Nat × Nat × Nat) (kw : Nat × Nat) :
    Nat × Nat × Nat × Nat × Nat × Nat × Nat × Nat :=
  let (a, b, c, d, e, f, g, h) := st
  let t1 := m32 (h + bsig1 e + chf e f g + kw.1 + kw.2)
  let t2 := m32 (bsig0 a + majf a b c)
  (m32 (t1 + t2), a, b, c, m32 (d + t1), e, f, g)

/-- Process one 64-byte block, updating the 8-word hash state. -/
def processBlock (H : List Nat) (block : List Nat) : List Nat :=
  let ws := extendSchedule (bytesToWords block)
  let init := (H.getD 0 0, H.getD 1 0, H.getD 2 0, H.getD 3 0,
               H.getD 4 0, H.getD 5 0, H.getD 6 0, H.getD 7 0)
  let fin := (sha256K.zip ws).foldl compressStep init
  match fin with
  | (a, b, c, d, e, f, g, h) =>
    [m32 (H.getD 0 0 + a), m32 (H.getD 1 0 + b), m32 (H.getD 2 0 + c), m32 (H.getD 3 0 + d),
     m32 (H.getD 4 0 + e), m32 (H.getD 5 0 + f), m32 (H.getD 6 0 + g), m32 (H.getD 7 0 + h)]

/-- SHA-256 padding: append `0x80`, zeros, and the 64-bit big-endian bit length. -/
def padMessage (msg : List Nat) : List Nat :=
  let L := msg.length
  let k := (120 - ((L + 1) % 64)) % 64
  msg ++ 128 :: (List.replicate k 0 ++ natToBytesBE 8 ((8 * L) % 18446744073709551616))

/-- Split into 64-byte chunks (fuel-driven; fuel `l.length` suffices). -/
def chunksAux : Nat → List Nat → List (List Nat)
  | 0, _ => []
  | f + 1, l => if l.isEmpty then [] else l.take 64 :: chunksAux f (l.drop 64)

/-- SHA-256 digest (32 bytes) of a byte string. -/
def sha256 (msg : List Nat) : List Nat :=
  let padded := padMessage msg
  ((chunksAux padded.length padded).foldl processBlock sha256H0).foldl
    (fun acc w => acc ++ natToBytesBE 4 w) []

/-! ## RNG (judge.py lines 46-58)

`RNG.Next` increments the counter, encodes it with Python
`counter.to_bytes(32, byteorder='big')` — which raises `OverflowError`
when the counter is negative or at least `2^256` (modelled as `none`) —
and returns the SHA-256 digest decoded as a big-endian integer. -/

/-- Model of Python `v.to_bytes(len, byteorder='big')`: fails (OverflowError)
unless `0 ≤ v < 256^len`. -/
def pyIntToBytes (len : Nat) (v : Int) : Option (List Nat) :=
  if 0 ≤ v ∧ v < (256 : Int) ^ len then some (natToBytesBE len v.toNat) else none

/-- Embedding of `RNG.Next`: the state is the counter; returns the drawn
value and the new counter. -/
def rngNext (counter : Int) : Option (Nat × Int) :=
  let c := counter + 1
  (pyIntToBytes 32 c).map (fun bs => (bytesToNatBE (sha256 bs), c))

/-- Values and final counter of `i` successive `RNG.Next` calls. -/
def rngIter (c : Int) : Nat → Option (List Nat × Int)
  | 0 => some ([], c)
  | k + 1 =>
    match rngNext c with
    | none => none
    | some (v, c') =>
      match rngIter c' k with
      | none => none
      | some (vs, c'') => some (v :: vs, c'')

/-- Closed form for the value returned by the `i`-th call (1-based) of an
RNG seeded with `seed`. -/
def rngValue (seed : Int) (i : Nat) : Nat :=
  bytesToNatBE (sha256 (natToBytesBE 32 (seed + i).toNat))

/-! ## Shuffle (judge.py lines 61-66) -/

/-- Swap positions `j` and `k` of a list (Python's three-assignment swap). -/
def listSwap (l : List Int) (j k : Nat) : List Int :=
  (l.set j (l.getD k 0)).set k (l.getD j 0)

/-- Run the Fisher-Yates steps for the indices in `js`, threading the RNG
counter. -/
def shuffleSteps (js : List Nat) (arr : List Int) (c : Int) : Option (List Int × Int) :=
  match js with
  | [] => some (arr, c)
  | j :: rest =>
    match rngNext c with
    | none => none
    | some (v, c') => shuffleSteps rest (listSwap arr j (v % (j + 1))) c'

/-- Embedding of `Shuffle(arr, rng)`: for `j` in `range(len(arr))`, draw
`k = rng.Next() % (j+1)` and swap positions `j` and `k`. -/
def Shuffle (arr : List Int) (c : Int) : Option (List Int × Int) :=
  shuffleSteps (List.range arr.length) arr c

/-- Initial (unshuffled) per-case item list `list(range(n))`. -/
def caseInit (n : Nat) : List Int := (List.range n).map Int.ofNat

/-- Embedding of judge.py lines 121-126: build `num_cases` lists
`list(range(n))` and shuffle each in case order with the shared RNG. -/
def initRemaining : Nat → Nat → Int → Option (List (List Int) × Int)
  | 0, _, c => some ([], c)
  | m + 1, n, c =>
    match Shuffle (caseInit n) c with
    | none => none
    | some (a, c') =>
      match initRemaining m n c' with
      | none => none
      | some (rest, c'') => some (a :: rest, c'')

/-! ## Interaction engine and scoring (judge.py lines 97-184)

`RunCases` is modelled in test mode: `Input()` pops the next line of
`testInput` (raising `EOFError`, i.e. ending the run with
`INVALID_LINE_ERROR` where the source catches it, when exhausted) and
`Output(line)` appends to the returned output list. -/

/-- Terminal outcome of a run: normal return, a protocol `Error`, or a
`WrongAnswer` verdict. -/
inductive Outcome where
  | accepted
  | protocolError (msg : String)
  | wrongAnswer (msg : String)
deriving DecidableEq

/-- Result of the round loop: either the termination signal was seen
(`done`, with the final case states, the unread input and the emitted
result lines) or an `Error` was raised (`fail`, with the message, the
case states at that moment and the emitted result lines). -/
inductive LoopRes where
  | done (remaining : List (List Int)) (restInput : List String) (outs : List String)
  | fail (msg : String) (remaining : List (List Int)) (outs : List String)
deriving DecidableEq

/-- First move violating `0 <= move <= n`, if any (judge.py lines 137-139
raise on the first offending move). -/
def findOOBMove (n : Int) : List Int → Option Int
  | [] => none
  | m :: ms => if m < 0 ∨ m > n then some m else findOOBMove n ms

/-- One case's response to one move (judge.py lines 147-156): move `0`
is a pass-through; otherwise item `move-1` yields `1` and loses one unit
if its value is positive, else yields `0`. Bounds were already checked,
so the index is within the list. -/
def playMove (move : Int) (rem : List Int) : Nat × List Int :=
  if move = 0 then (0, rem)
  else if 0 < rem.getD (move - 1).toNat 0 then
    (1, rem.set (move - 1).toNat (rem.getD (move - 1).toNat 0 - 1))
  else (0, rem)

/-- One round across all cases (judge.py `zip(moves, remaining)` loop):
per-case results and updated case states. -/
def playRound : List Int → List (List Int) → List Nat × List (List Int)
  | m :: ms, r :: rs =>
    let p := playMove m r
    let q := playRound ms rs
    (p.1 :: q.1, p.2 :: q.2)
  | [], rs => ([], rs)
  | _ :: _, [] => ([], [])

/-- Space-join a list of rendered tokens. -/
def spaceJoin (l : List String) : String := String.intercalate " " l

/-- The round loop (judge.py lines 131-157). `numRounds` is the rounds
counter; `maxRounds` is `n*(n+1)//2`. Reading past the end of input
raises `EOFError`, reported as `INVALID_LINE_ERROR`. -/
def roundLoop (numCases : Nat) (n : Int) (maxRounds : Nat) :
    Nat → List (List Int) → List String → LoopRes
  | _, remaining, [] => .fail INVALID_LINE_ERROR remaining []
  | numRounds, remaining, line :: rest =>
    match ReadValues line numCases with
    | .error e => .fail e remaining []
    | .ok moves =>
      match findOOBMove n moves with
      | some m => .fail (OUT_OF_BOUNDS_ERROR m) remaining []
      | none =>
        if moves.all (fun m => m == 0) then .done remaining rest []
        else if maxRounds < numRounds + 1 then .fail TOO_MANY_ROUNDS_ERROR remaining []
        else
          let p := playRound moves remaining
          let out := spaceJoin (p.1.map renderNat)
          match roundLoop numCases n maxRounds (numRounds + 1) p.2 rest with
          | .done r2 rest2 outs => .done r2 rest2 (out :: outs)
          | .fail m r2 outs => .fail m r2 (out :: outs)

/-- The scoring loop (judge.py lines 164-175) over
`zip(guesses[0::2], guesses[1::2], remaining)`: validates each pair
(bounds of `v1`, bounds of `v2`, distinctness, in that order) and counts
the cases whose two remaining values sum to at least `n`. -/
def scoreLoop (n : Int) : List Int → List (List Int) → Except String Nat
  | v1 :: v2 :: gs, rem :: rems =>
    if v1 < 1 ∨ v1 > n then .error (OUT_OF_BOUNDS_ERROR v1)
    else if v2 < 1 ∨ v2 > n then .error (OUT_OF_BOUNDS_ERROR v2)
    else if v1 = v2 then .error SAME_PEN_TWICE_ERROR
    else
      match scoreLoop n gs rems with
      | .error e => .error e
      | .ok c =>
        .ok (if n ≤ rem.getD (v1 - 1).toNat 0 + rem.getD (v2 - 1).toNat 0 then c + 1 else c)
  | _, _ => .ok 0

/-- Everything after the round loop exits (judge.py lines 159-184): read
the guess line (`2*num_cases` tokens), score it, check that input is
exhausted, and compare the correct count against the threshold. -/
def afterLoop (numCases : Nat) (n : Int) (needCorrect : Nat)
    (remaining : List (List Int)) (inp : List String) : Outcome :=
  match inp with
  | [] => .protocolError INVALID_LINE_ERROR
  | gline :: rest =>
    match ReadValues gline (2 * numCases) with
    | .error e => .protocolError e
    | .ok guesses =>
      match scoreLoop n guesses remaining with
      | .error e => .protocolError e
      | .ok correct =>
        match rest with
        | extra :: _ => .protocolError (ADDITIONAL_INPUT_ERROR (strTake extra 100))
        | [] =>
          if correct < needCorrect then .wrongAnswer (TOO_FEW_CORRECT_ERROR correct)
          else .accepted

/-- Embedding of `RunCases(num_cases, n, need_correct, seed, test_input,
test_output_storage)`. Returns `none` when the RNG raises `OverflowError`
(negative or too-large counter); otherwise the outcome and the lines
written to the output storage. -/
def RunCases (numCases n needCorrect : Nat) (seed : Int) (testInput : List String) :
    Option (Outcome × List String) :=
  let header := spaceJoin [renderNat numCases, renderNat n, renderNat needCorrect]
  match initRemaining numCases n seed with
  | none => none
  | some (remaining, _) =>
    match roundLoop numCases n (n * (n + 1) / 2) 0 remaining testInput with
    | .fail e _ outs => some (.protocolError e, header :: outs)
    | .done rem2 rest outs => some (afterLoop numCases n needCorrect rem2 rest, header :: outs)

set_option maxRecDepth 10000 in
example : initRemaining 1 1 0 = some ([[0]], 1) := by decide

/-! ## Substring containment (used to state what an error message carries) -/

/-- Whether `pat` occurs as a contiguous subsequence of `l`. -/
def containsSeq (pat l : List Char) : Bool :=
  (List.range (l.length + 1)).any (fun i => ((l.drop i).take pat.length) == pat)

theorem containsSeq_append (pre pat suf : List Char) :
    containsSeq pat (pre ++ pat ++ suf) = true := by
  rw [containsSeq, List.any_eq_true]
  refine ⟨pre.length, List.mem_range.mpr ?_, ?_⟩
  · simp only [List.length_append]
    omega
  · rw [List.append_assoc, List.drop_left, List.take_left]
    exact beq_self_eq_true pat

/-! ## Correctness of decimal rendering vs integer parsing -/

theorem digitChar_isDigit {d : Nat} (h : d < 10) : (digitChar d).isDigit = true := by
  interval_cases d <;> decide

theorem charVal_digitChar {d : Nat} (h : d < 10) : charVal (digitChar d) = d := by
  interval_cases d <;> decide

theorem natDigits_ne_nil (f n : Nat) : natDigits (f + 1) n ≠ [] := by
  rw [natDigits]
  split
  · exact List.cons_ne_nil _ _
  · exact fun h => absurd (List.append_eq_nil.mp h).2 (List.cons_ne_nil _ _)

theorem natDigits_digits : ∀ f n c, c ∈ natDigits f n → c.isDigit = true := by
  intro f
  induction f with
  | zero => intro n c h; exact absurd h (List.not_mem_nil c)
  | succ f ih =>
    intro n c h
    rw [natDigits] at h
    by_cases h10 : n < 10
    · rw [if_pos h10] at h
      simp only [List.mem_singleton] at h
      exact h ▸ digitChar_isDigit h10
    · rw [if_neg h10, List.mem_append] at h
      rcases h with h | h
      · exact ih _ _ h
      · simp only [List.mem_singleton] at h
        exact h ▸ digitChar_isDigit (Nat.mod_lt _ (by omega))

theorem goDigits_natDigits :
    ∀ f n, n < 10 ^ f → ∀ rest acc,
      goDigits (natDigits f n ++ rest) acc =
      goDigits rest (acc * 10 ^ (natDigits f n).length + n) := by
  intro f
  induction f with
  | zero =>
    intro n hn rest acc
    have hn0 : n = 0 := by simpa using hn
    subst hn0
    simp [natDigits]
  | succ f ih =>
    intro n hn rest acc
    by_cases h10 : n < 10
    · rw [natDigits, if_pos h10]
      simp only [List.singleton_append, List.length_singleton]
      rw [goDigits, if_pos (digitChar_isDigit h10), charVal_digitChar h10]
      ring_nf
    · rw [natDigits, if_neg h10]
      have hdiv : n / 10 < 10 ^ f := by
        rw [Nat.div_lt_iff_lt_mul (by norm_num)]
        calc n < 10 ^ (f + 1) := hn
        _ = 10 ^ f * 10 := by rw [pow_succ]
      rw [List.append_assoc, ih (n / 10) hdiv]
      have hmod : n % 10 < 10 := Nat.mod_lt _ (by omega)
      rw [List.singleton_append, goDigits, if_pos (digitChar_isDigit hmod),
        charVal_digitChar hmod]
      congr 1
      · simp only [List.length_append, List.length_singleton]
        have := Nat.div_add_mod n 10
        rw [pow_succ]
        ring_nf
        omega

theorem parseDigits_natDigits (n : Nat) : parseDigits (natDigits (n + 1) n) = some n := by
  have h1 : n < 10 ^ (n + 1) :=
    lt_of_lt_of_le (Nat.lt_pow_self (by norm_num) n)
      (Nat.pow_le_pow_right (by norm_num) (by omega))
  have h2 := goDigits_natDigits (n + 1) n h1 [] 0
  rw [List.append_nil] at h2
  rw [parseDigits, if_neg (by simpa using natDigits_ne_nil n n), h2, goDigits]
  simp

theorem pyIntOfChars_renderIntChars (v : Int) : pyIntOfChars (renderIntChars v) = some v := by
  by_cases hv : v < 0
  · rw [renderIntChars, if_pos hv, pyIntOfChars, if_pos rfl, parseDigits_natDigits]
    simp only [Option.map_some', Int.ofNat_eq_coe]
    congr 1
    omega
  · rw [renderIntChars, if_neg hv]
    obtain ⟨c, cs, hcc⟩ : ∃ c cs, natDigits (v.toNat + 1) v.toNat = c :: cs := by
      cases h : natDigits (v.toNat + 1) v.toNat with
      | nil => exact absurd h (natDigits_ne_nil _ _)
      | cons c cs => exact ⟨c, cs, rfl⟩
    have hd : c.isDigit = true :=
      natDigits_digits _ _ _ (hcc ▸ List.mem_cons_self c cs)
    have h1 : ¬(c = '-') := fun h => by rw [h] at hd; exact absurd hd (by decide)
    have h2 : ¬(c = '+') := fun h => by rw [h] at hd; exact absurd hd (by decide)
    rw [hcc, pyIntOfChars, if_neg h1, if_neg h2, ← hcc, parseDigits_natDigits]
    simp only [Option.map_some', Int.ofNat_eq_coe]
    congr 1
    omega

theorem isDigit_not_space {c : Char} (h : c.isDigit = true) : pyIsSpace c = false := by
  by_contra hs
  have hs' : pyIsSpace c = true := by
    cases hps : pyIsSpace c
    · exact absurd hps hs
    · rfl
  simp only [pyIsSpace, Bool.or_eq_true, decide_eq_true_eq] at hs'
  rcases hs' with ((((h1 | h1) | h1) | h1) | h1) | h1 <;> subst h1 <;>
    exact absurd h (by decide)

theorem renderIntChars_ne_nil (v : Int) : renderIntChars v ≠ [] := by
  rw [renderIntChars]
  split
  · simp
  · exact natDigits_ne_nil _ _

theorem renderIntChars_not_space (v : Int) : ∀ c ∈ renderIntChars v, pyIsSpace c = false := by
  intro c hc
  rw [renderIntChars] at hc
  split at hc
  · rcases List.mem_cons.mp hc with h | h
    · rw [h]; decide
    · exact isDigit_not_space (natDigits_digits _ _ _ h)
  · exact isDigit_not_space (natDigits_digits _ _ _ hc)

/-! ## Split/join round trip -/

/-- Space-join a list of token character lists. -/
def joinTokens : List (List Char) → List Char
  | [] => []
  | [t] => t
  | t :: t' :: ts => t ++ ' ' :: joinTokens (t' :: ts)

theorem pySplitAux_append (t : List Char) (hns : ∀ c ∈ t, pyIsSpace c = false) :
    ∀ cs acc, pySplitAux (t ++ cs) acc = pySplitAux cs (t.reverse ++ acc) := by
  induction t with
  | nil => intro cs acc; simp
  | cons c t ih =>
    intro cs acc
    have hc : pyIsSpace c = false := hns c (List.mem_cons_self c t)
    rw [List.cons_append, pySplitAux, hc]
    simp only [Bool.false_eq_true, if_false]
    rw [ih (fun c h => hns c (List.mem_cons_of_mem _ h)) cs (c :: acc)]
    simp [List.reverse_cons, List.append_assoc]

theorem pySplit_joinTokens :
    ∀ ts : List (List Char),
      (∀ t ∈ ts, t ≠ [] ∧ ∀ c ∈ t, pyIsSpace c = false) →
      pySplit (joinTokens ts) = ts := by
  intro ts
  induction ts with
  | nil => intro _; rfl
  | cons t ts ih =>
    intro h
    obtain ⟨hne, hns⟩ := h t (List.mem_cons_self t ts)
    match ts with
    | [] =>
      show pySplitAux (joinTokens [t]) [] = [t]
      have : joinTokens [t] = t := rfl
      rw [this, ← List.append_nil t, pySplitAux_append t hns [] []]
      rw [pySplitAux]
      rw [if_neg (by simpa using hne)]
      simp
    | t' :: ts' =>
      show pySplitAux (joinTokens (t :: t' :: ts')) [] = t :: t' :: ts'
      rw [joinTokens, pySplitAux_append t hns _ []]
      rw [pySplitAux]
      have hsp : pyIsSpace ' ' = true := by decide
      rw [hsp]
      simp only [if_true]
      rw [if_neg (by simpa using hne)]
      simp only [List.append_nil, List.reverse_reverse]
      congr 1
      exact ih (fun u hu => h u (List.mem_cons_of_mem _ hu))

theorem parseTokens_render (vs : List Int) :
    parseTokens (vs.map renderIntChars) = .ok vs := by
  induction vs with
  | nil => rfl
  | cons v vs ih =>
    rw [List.map_cons, parseTokens, pyIntOfChars_renderIntChars, ih]
    rfl

/-- The space-joined decimal rendering of a list of integers. -/
def spaceJoinedLine (vs : List Int) : String := String.mk (joinTokens (vs.map renderIntChars))

theorem wrongNumTokens_contains (e f : Nat) :
    containsSeq (renderNat e).toList (WRONG_NUM_TOKENS_ERROR e f).toList = true ∧
    containsSeq (renderNat f).toList (WRONG_NUM_TOKENS_ERROR e f).toList = true := by
  constructor
  · have h := containsSeq_append "Wrong number of tokens: expected ".toList
      (renderNat e).toList (", found " ++ renderNat f ++ ".").toList
    simpa [WRONG_NUM_TOKENS_ERROR, String.toList, String.data_append] using h
  · have h := containsSeq_append ("Wrong number of tokens: expected " ++ renderNat e ++ ", found ").toList
      (renderNat f).toList ".".toList
    simpa [WRONG_NUM_TOKENS_ERROR, String.toList, String.data_append] using h

/-- Claim C5: `ReadValues` round-trips: applied to the space-joined decimal
rendering of any `k` integers with expected token count `k`, it returns
exactly those integers in order; applied to any line with an expected
count different from the line's actual token count, it always fails with
the token-count error, whose message names both the expected and the
actual count. -/
theorem readValues_roundtrip_and_arity (vs : List Int) (line : String) (k : Nat)
    (hk : k ≠ (pySplit line.toList).length) :
    ReadValues (spaceJoinedLine vs) vs.length = .ok vs ∧
    ReadValues line k = .error (WRONG_NUM_TOKENS_ERROR k (pySplit line.toList).length) ∧
    containsSeq (renderNat k).toList
      (WRONG_NUM_TOKENS_ERROR k (pySplit line.toList).length).toList = true ∧
    containsSeq (renderNat (pySplit line.toList).length).toList
      (WRONG_NUM_TOKENS_ERROR k (pySplit line.toList).length).toList = true := by
  refine ⟨?_, ?_, (wrongNumTokens_contains _ _).1, (wrongNumTokens_contains _ _).2⟩
  · have hsplit : pySplit (spaceJoinedLine vs).toList = vs.map renderIntChars := by
      have h0 : (spaceJoinedLine vs).toList = joinTokens (vs.map renderIntChars) := rfl
      rw [h0]
      apply pySplit_joinTokens
      intro t ht
      obtain ⟨v, _, rfl⟩ := List.mem_map.mp ht
      exact ⟨renderIntChars_ne_nil v, renderIntChars_not_space v⟩
    rw [ReadValues, hsplit, List.length_map, if_neg (by simp)]
    exact parseTokens_render vs
  · rw [ReadValues, if_pos (Ne.symm hk)]

theorem readValues_roundtrip_witness :
    ReadValues (spaceJoinedLine [3, -7]) 2 = .ok [3, -7] ∧
    ReadValues "1 2" 3 = .error (WRONG_NUM_TOKENS_ERROR 3 2) := by
  have h := readValues_roundtrip_and_arity [3, -7] "1 2" 3 (by decide)
  have hlen : (pySplit "1 2".toList).length = 2 := by decide
  refine ⟨h.1, ?_⟩
  have h2 := h.2.1
  rw [hlen] at h2
  exact h2

/-! ## Permutation facts about the shuffle -/

theorem count_set (x a : Int) :
    ∀ (l : List Int) (i : Nat), i < l.length →
      (l.set i a).count x + (if l.getD i 0 = x then 1 else 0) =
      l.count x + (if a = x then 1 else 0) := by
  intro l
  induction l with
  | nil => intro i hi; simp at hi
  | cons b t ih =>
    intro i hi
    cases i with
    | zero =>
      show (a :: t).count x + (if b = x then 1 else 0) =
        (b :: t).count x + (if a = x then 1 else 0)
      simp only [List.count_cons, beq_iff_eq]
      split_ifs <;> omega
    | succ i =>
      show (b :: t.set i a).count x + (if t.getD i 0 = x then 1 else 0) =
        (b :: t).count x + (if a = x then 1 else 0)
      simp only [List.count_cons, beq_iff_eq]
      have h2 := ih i (by simpa using hi)
      split_ifs at h2 ⊢ <;> omega

theorem getD_set_ne {l : List Int} {i j : Nat} (h : i ≠ j) (a : Int) :
    (l.set i a).getD j 0 = l.getD j 0 := by
  rcases Nat.lt_or_ge j l.length with hj | hj
  · rw [List.getD_eq_getElem _ _ (by simpa using hj), List.getD_eq_getElem _ _ hj]
    exact List.getElem_set_ne h _
  · rw [List.getD_eq_default _ _ (by simpa using hj), List.getD_eq_default _ _ hj]

theorem set_getD_self : ∀ (l : List Int) (i : Nat), i < l.length →
    l.set i (l.getD i 0) = l := by
  intro l
  induction l with
  | nil => intro i hi; simp at hi
  | cons b t ih =>
    intro i hi
    cases i with
    | zero => rfl
    | succ i =>
      show b :: t.set i (t.getD i 0) = b :: t
      rw [ih i (by simpa using hi)]

theorem listSwap_length (l : List Int) (j k : Nat) : (listSwap l j k).length = l.length := by
  simp [listSwap]

theorem listSwap_perm (l : List Int) {j k : Nat} (hj : j < l.length) (hk : k < l.length) :
    (listSwap l j k).Perm l := by
  by_cases hjk : j = k
  · subst hjk
    rw [listSwap, List.set_set, set_getD_self l j hj]
  · rw [List.perm_iff_count]
    intro x
    have h1 := count_set x (l.getD j 0) (l.set j (l.getD k 0)) k (by simpa using hk)
    have h2 := count_set x (l.getD k 0) l j hj
    rw [getD_set_ne hjk] at h1
    rw [listSwap]
    split_ifs at h1 h2 <;> omega

theorem shuffleSteps_spec :
    ∀ (js : List Nat) (arr : List Int) (c : Int) (arr' : List Int) (c' : Int),
      (∀ j ∈ js, j < arr.length) →
      shuffleSteps js arr c = some (arr', c') →
      arr'.Perm arr ∧ arr'.length = arr.length ∧ c' = c + js.length := by
  intro js
  induction js with
  | nil =>
    intro arr c arr' c' _ h
    rw [shuffleSteps] at h
    simp only [Option.some.injEq, Prod.mk.injEq] at h
    obtain ⟨rfl, rfl⟩ := h
    exact ⟨List.Perm.refl _, rfl, by simp⟩
  | cons j rest ih =>
    intro arr c arr' c' hb h
    rw [shuffleSteps] at h
    cases hn : rngNext c with
    | none => rw [hn] at h; exact absurd h (by simp)
    | some vc =>
      obtain ⟨v, c1⟩ := vc
      rw [hn] at h
      replace h : shuffleSteps rest (listSwap arr j (v % (j + 1))) c1 = some (arr', c') := h
      have hc1 : c1 = c + 1 := by
        rw [rngNext] at hn
        cases hb2 : pyIntToBytes 32 (c + 1) with
        | none => rw [hb2] at hn; exact absurd hn (by simp)
        | some bs =>
          rw [hb2] at hn
          simp only [Option.map_some', Option.some.injEq, Prod.mk.injEq] at hn
          exact hn.2.symm
      have hjlen : j < arr.length := hb j (List.mem_cons_self j rest)
      have hklen : v % (j + 1) < arr.length :=
        lt_of_le_of_lt (Nat.lt_succ_iff.mp (Nat.mod_lt v (Nat.succ_pos j))) hjlen
      obtain ⟨hp, hl, hc⟩ := ih (listSwap arr j (v % (j + 1))) c1 arr' c'
        (by intro x hx; rw [listSwap_length]; exact hb x (List.mem_cons_of_mem _ hx)) h
      refine ⟨hp.trans (listSwap_perm arr hjlen hklen), by rw [hl, listSwap_length], ?_⟩
      rw [hc, hc1, List.length_cons]
      push_cast
      ring

theorem Shuffle_spec {arr arr' : List Int} {c c' : Int}
    (h : Shuffle arr c = some (arr', c')) :
    arr'.Perm arr ∧ arr'.length = arr.length ∧ c' = c + arr.length := by
  have := shuffleSteps_spec (List.range arr.length) arr c arr' c'
    (fun j hj => List.mem_range.mp hj) h
  simpa using this

theorem caseInit_length (n : Nat) : (caseInit n).length = n := by simp [caseInit]

theorem initRemaining_spec :
    ∀ (m n : Nat) (c : Int) (rem : List (List Int)) (c' : Int),
      initRemaining m n c = some (rem, c') →
      rem.length = m ∧ (∀ l ∈ rem, l.Perm (caseInit n)) ∧ c' = c + m * n := by
  intro m
  induction m with
  | zero =>
    intro n c rem c' h
    rw [initRemaining] at h
    simp only [Option.some.injEq, Prod.mk.injEq] at h
    obtain ⟨rfl, rfl⟩ := h
    exact ⟨rfl, by simp, by simp⟩
  | succ m ih =>
    intro n c rem c' h
    rw [initRemaining] at h
    cases hs : Shuffle (caseInit n) c with
    | none => rw [hs] at h; exact absurd h (by simp)
    | some ac =>
      obtain ⟨a, c1⟩ := ac
      rw [hs] at h
      replace h : (match initRemaining m n c1 with
        | none => none
        | some (rest, c'') => some (a :: rest, c'')) = some (rem, c') := h
      cases hr : initRemaining m n c1 with
      | none => rw [hr] at h; exact absurd h (by simp)
      | some rc =>
        obtain ⟨rest, c2⟩ := rc
        rw [hr] at h
        simp only [Option.some.injEq, Prod.mk.injEq] at h
        obtain ⟨rfl, rfl⟩ := h
        obtain ⟨hpa, _, hc1⟩ := Shuffle_spec hs
        obtain ⟨hlen, hperm, hc2⟩ := ih n c1 rest c2 hr
        refine ⟨by simp [hlen], ?_, ?_⟩
        · intro l hl
          rcases List.mem_cons.mp hl with rfl | hl
          · exact hpa
          · exact hperm l hl
        · rw [hc2, hc1, caseInit_length]
          push_cast
          ring

/-- Claim C4: for every seed and every `N ≥ 1`, when initialization
completes, each case's hidden item sequence is a permutation of
`0..N-1` (as a multiset: set equality with no duplicates), obtained by
Fisher-Yates shuffling `[0, 1, ..., N-1]`; the shuffles are drawn from
the single shared RNG stream in case order, each consuming exactly `N`
draws, so the final counter is `seed + numCases * N`. -/
theorem initRemaining_permutation (numCases n : Nat) (seed : Int)
    (rem : List (List Int)) (c : Int) (hn : 1 ≤ n)
    (h : initRemaining numCases n seed = some (rem, c)) :
    rem.length = numCases ∧
    (∀ l ∈ rem, l.Perm ((List.range n).map Int.ofNat)) ∧
    c = seed + numCases * n := by
  obtain ⟨h1, h2, h3⟩ := initRemaining_spec numCases n seed rem c h
  exact ⟨h1, fun l hl => h2 l hl, h3⟩

set_option maxRecDepth 40000 in
theorem initRemaining_permutation_witness :
    (1 ≤ 1) ∧ initRemaining 1 1 0 = some ([[0]], 1) ∧
    (([[0]] : List (List Int)).length = 1 ∧
     (∀ l ∈ [([0] : List Int)], l.Perm ((List.range 1).map Int.ofNat)) ∧
     (1 : Int) = 0 + (1 : Nat) * (1 : Nat)) := by
  refine ⟨le_refl 1, by decide, ?_⟩
  exact initRemaining_permutation 1 1 0 [[0]] 1 (le_refl 1) (by decide)

/-! ## The RNG closed form (claim C7) -/

theorem pow256_eq : (256 : Int) ^ 32 = 2 ^ 256 := by norm_num

/-- Claim C7 (amended): `RNG.Next` is a deterministic pure function of
the seed and the call index provided every counter value reached is
encodable as a 32-byte unsigned big-endian integer
(`0 ≤ seed + 1` and `seed + i < 2^256`): the `i`-th call (1-based)
returns the SHA-256 digest of `seed + i` encoded as a 32-byte big-endian
unsigned integer, the digest reinterpreted as a big-endian unsigned
integer over the full 256-bit range. Outside that range Python's
`int.to_bytes` raises `OverflowError` (see the counterexample), so the
claim's "no failure modes for every signed seed" is too strong. -/
theorem rngIter_closed_form (seed : Int) (i : Nat)
    (h0 : -1 ≤ seed) (h1 : seed + i < (2 : Int) ^ 256) :
    rngIter seed i =
      some ((List.range i).map (fun j => rngValue seed (j + 1)), seed + i) := by
  induction i generalizing seed with
  | zero => simp [rngIter]
  | succ i ih =>
    have hcast : ((i + 1 : Nat) : Int) = (i : Int) + 1 := by push_cast; ring
    have hcond : 0 ≤ seed + 1 ∧ seed + 1 < (256 : Int) ^ 32 := by
      refine ⟨by omega, ?_⟩
      rw [pow256_eq]
      have h1' := h1
      rw [hcast] at h1'
      omega
    have hb : pyIntToBytes 32 (seed + 1) = some (natToBytesBE 32 (seed + 1).toNat) := by
      rw [pyIntToBytes, if_pos hcond]
    have hnext : rngNext seed = some (rngValue seed 1, seed + 1) := by
      rw [rngNext, hb, Option.map_some', rngValue]
      norm_num
    rw [rngIter, hnext]
    show (match rngIter (seed + 1) i with
      | none => none
      | some (vs, c'') => some (rngValue seed 1 :: vs, c'')) =
      some ((List.range (i + 1)).map (fun j => rngValue seed (j + 1)),
        seed + ((i + 1 : Nat) : Int))
    have hih : rngIter (seed + 1) i =
        some ((List.range i).map (fun j => rngValue (seed + 1) (j + 1)), seed + 1 + i) := by
      apply ih
      · omega
      · have h1' := h1
        rw [hcast] at h1'
        omega
    rw [hih]
    show some (rngValue seed 1 ::
        (List.range i).map (fun j => rngValue (seed + 1) (j + 1)), seed + 1 + (i : Int)) =
      some ((List.range (i + 1)).map (fun j => rngValue seed (j + 1)),
        seed + ((i + 1 : Nat) : Int))
    have hmap : (List.range i).map (fun j => rngValue (seed + 1) (j + 1)) =
        (List.range i).map (fun j => rngValue seed (j + 2)) := by
      apply List.map_congr_left
      intro j _
      rw [rngValue, rngValue]
      have h2 : seed + 1 + ((j + 1 : Nat) : Int) = seed + ((j + 2 : Nat) : Int) := by
        push_cast; ring
      rw [h2]
    rw [hmap, List.range_succ_eq_map, List.map_cons, List.map_map,
      show seed + 1 + (i : Int) = seed + ((i + 1 : Nat) : Int) from by push_cast; ring]
    rfl

theorem rngIter_closed_form_witness :
    rngIter 0 1 = some ([rngValue 0 1], 1) := by
  have h := rngIter_closed_form 0 1 (by norm_num) (by norm_num)
  simpa using h

/-- Claim C7 counterexample: with the valid signed seed `-2`, the very
first `RNG.Next` call already fails: the incremented counter `-1`
cannot be encoded by `to_bytes(32, byteorder='big')` (Python raises
`OverflowError`), contradicting "total ... with no failure modes ...
for every seed that is a signed or unsigned wide integer". -/
theorem rngIter_neg_seed_fails : rngIter (-2) 1 = none := by decide

/-! ## Round-loop structure (claims C1, C3, C8, C10) -/

/-- A contestant line that parses to `numCases` in-bounds moves not all
zero: a normal round. -/
def NormalLine (numCases : Nat) (n : Int) (line : String) : Prop :=
  ∃ moves, ReadValues line numCases = .ok moves ∧ findOOBMove n moves = none ∧
    moves.all (fun m => m == 0) = false

/-- A contestant line that parses to `numCases` in-bounds moves, all
zero: the termination signal. -/
def TermLine (numCases : Nat) (n : Int) (line : String) : Prop :=
  ∃ moves, ReadValues line numCases = .ok moves ∧ findOOBMove n moves = none ∧
    moves.all (fun m => m == 0) = true

/-- Prefix a list of emitted lines onto a loop result's output. -/
def prependOuts (pre : List String) : LoopRes → LoopRes
  | .done r rest o => .done r rest (pre ++ o)
  | .fail m r o => .fail m r (pre ++ o)

theorem prependOuts_nil (r : LoopRes) : prependOuts [] r = r := by
  cases r <;> simp [prependOuts]

theorem roundLoop_term (nc : Nat) (n : Int) (maxR k : Nat) (rem : List (List Int))
    (line : String) (rest : List String) (h : TermLine nc n line) :
    roundLoop nc n maxR k rem (line :: rest) = .done rem rest [] := by
  obtain ⟨moves, h1, h2, h3⟩ := h
  simp only [roundLoop, h1, h2, h3, if_true]

theorem roundLoop_too_many (nc : Nat) (n : Int) (maxR k : Nat) (rem : List (List Int))
    (line : String) (rest : List String) (moves : List Int)
    (h1 : ReadValues line nc = .ok moves) (h2 : findOOBMove n moves = none)
    (h3 : moves.all (fun m => m == 0) = false) (h4 : maxR < k + 1) :
    roundLoop nc n maxR k rem (line :: rest) = .fail TOO_MANY_ROUNDS_ERROR rem [] := by
  simp only [roundLoop, h1, h2, h3, Bool.false_eq_true, if_false, if_pos h4]

theorem roundLoop_normal_step (nc : Nat) (n : Int) (maxR k : Nat) (rem : List (List Int))
    (line : String) (rest : List String) (moves : List Int)
    (h1 : ReadValues line nc = .ok moves) (h2 : findOOBMove n moves = none)
    (h3 : moves.all (fun m => m == 0) = false) (h4 : k + 1 ≤ maxR) :
    roundLoop nc n maxR k rem (line :: rest) =
      prependOuts [spaceJoin ((playRound moves rem).1.map renderNat)]
        (roundLoop nc n maxR (k + 1) (playRound moves rem).2 rest) := by
  simp only [roundLoop, h1, h2, h3, Bool.false_eq_true, if_false,
    if_neg (by omega : ¬ maxR < k + 1)]
  cases roundLoop nc n maxR (k + 1) (playRound moves rem).2 rest <;> simp [prependOuts]

theorem roundLoop_normals (nc : Nat) (n : Int) (maxR : Nat) :
    ∀ (lines : List String) (k : Nat) (rem : List (List Int)) (rest : List String),
      (∀ l ∈ lines, NormalLine nc n l) → k + lines.length ≤ maxR →
      ∃ rem2 outs, outs.length = lines.length ∧
        roundLoop nc n maxR k rem (lines ++ rest) =
          prependOuts outs (roundLoop nc n maxR (k + lines.length) rem2 rest) := by
  intro lines
  induction lines with
  | nil =>
    intro k rem rest _ _
    exact ⟨rem, [], rfl, by simp [prependOuts_nil]⟩
  | cons line lines ih =>
    intro k rem rest hl hb
    obtain ⟨moves, h1, h2, h3⟩ := hl line (List.mem_cons_self _ _)
    have hstep := roundLoop_normal_step nc n maxR k rem line (lines ++ rest) moves h1 h2 h3
      (by simp only [List.length_cons] at hb; omega)
    obtain ⟨rem2, outs, hlen, heq⟩ := ih (k + 1) (playRound moves rem).2 rest
      (fun l h => hl l (List.mem_cons_of_mem _ h))
      (by simp only [List.length_cons] at hb; omega)
    refine ⟨rem2, spaceJoin ((playRound moves rem).1.map renderNat) :: outs,
      by simp [hlen], ?_⟩
    rw [List.cons_append, hstep, heq,
      show k + (line :: lines).length = k + 1 + lines.length from by simp; omega]
    cases roundLoop nc n maxR (k + 1 + lines.length) rem2 rest <;> simp [prependOuts]

theorem roundLoop_exceeds (nc : Nat) (n : Int) (maxR : Nat) :
    ∀ (lines : List String) (k : Nat) (rem : List (List Int)) (rest : List String),
      lines ≠ [] → (∀ l ∈ lines, NormalLine nc n l) → maxR < k + lines.length →
      ∃ rem2 outs, roundLoop nc n maxR k rem (lines ++ rest) =
        .fail TOO_MANY_ROUNDS_ERROR rem2 outs := by
  intro lines
  induction lines with
  | nil => intro k rem rest hne; exact absurd rfl hne
  | cons line lines ih =>
    intro k rem rest _ hl hb
    obtain ⟨moves, h1, h2, h3⟩ := hl line (List.mem_cons_self _ _)
    by_cases hk : maxR < k + 1
    · exact ⟨rem, [], by
        rw [List.cons_append]
        exact roundLoop_too_many nc n maxR k rem line (lines ++ rest) moves h1 h2 h3 hk⟩
    · have hstep := roundLoop_normal_step nc n maxR k rem line (lines ++ rest) moves h1 h2 h3
        (by omega)
      have hlne : lines ≠ [] := by
        intro hemp
        subst hemp
        simp only [List.length_cons, List.length_nil] at hb
        omega
      obtain ⟨rem2, outs, heq⟩ := ih (k + 1) (playRound moves rem).2 rest hlne
        (fun l h => hl l (List.mem_cons_of_mem _ h))
        (by simp only [List.length_cons] at hb ⊢; omega)
      refine ⟨rem2, spaceJoin ((playRound moves rem).1.map renderNat) :: outs, ?_⟩
      rw [List.cons_append, hstep, heq]
      simp [prependOuts]

theorem roundLoop_done_reason (nc : Nat) (n : Int) (maxR : Nat) :
    ∀ (inp : List String) (k : Nat) (rem rem2 : List (List Int))
      (rest outs : List String),
      roundLoop nc n maxR k rem inp = .done rem2 rest outs →
      ∃ pre line moves, inp = pre ++ line :: rest ∧ ReadValues line nc = .ok moves ∧
        moves.all (fun m => m == 0) = true := by
  intro inp
  induction inp with
  | nil =>
    intro k rem rem2 rest outs h
    rw [roundLoop] at h
    exact absurd h (by simp)
  | cons line rest' ih =>
    intro k rem rem2 rest outs h
    cases hrv : ReadValues line nc with
    | error e =>
      simp only [roundLoop, hrv] at h
      exact absurd h (by simp)
    | ok moves =>
      simp only [roundLoop, hrv] at h
      cases hf : findOOBMove n moves with
      | some m =>
        simp only [hf] at h
        exact absurd h (by simp)
      | none =>
        simp only [hf] at h
        by_cases hz : moves.all (fun m => m == 0) = true
        · rw [if_pos hz] at h
          injection h with e1 e2 e3
          exact ⟨[], line, moves, by simp [e2], hrv, hz⟩
        · rw [if_neg hz] at h
          by_cases hk : maxR < k + 1
          · rw [if_pos hk] at h
            exact absurd h (by simp)
          · rw [if_neg hk] at h
            cases hrec : roundLoop nc n maxR (k + 1) (playRound moves rem).2 rest' with
            | fail m r o =>
              simp only [hrec] at h
              exact absurd h (by simp)
            | done r2 rst o =>
              simp only [hrec] at h
              injection h with e1 e2 e3
              obtain ⟨pre, l2, mv2, hpre, hl2, hz2⟩ :=
                ih (k + 1) (playRound moves rem).2 r2 rst o hrec
              exact ⟨line :: pre, l2, mv2, by rw [← e2, hpre]; rfl, hl2, hz2⟩

/-- Unfolding of `RunCases` once initialization is known to succeed. -/
theorem RunCases_eq (numCases n needC : Nat) (seed : Int) (inp : List String)
    (rem0 : List (List Int)) (c : Int)
    (hinit : initRemaining numCases n seed = some (rem0, c)) :
    RunCases numCases n needC seed inp =
      (match roundLoop numCases n (n * (n + 1) / 2) 0 rem0 inp with
        | .fail e _ outs =>
          some (.protocolError e,
            spaceJoin [renderNat numCases, renderNat n, renderNat needC] :: outs)
        | .done rem2 rest outs =>
          some (afterLoop numCases n needC rem2 rest,
            spaceJoin [renderNat numCases, renderNat n, renderNat needC] :: outs)) := by
  rw [RunCases, hinit]

/-- Claim C3: the round budget is exactly `N*(N+1)/2`. With valid normal
(non-terminating) round lines and an all-zero terminating line: playing
exactly the budget of normal rounds and then terminating reaches the
scoring phase, and when the subsequent answer passes scoring the whole
run is accepted; one additional normal round fails with
`TooManyRoundsError`; the all-zero line is never counted as a round (it
exits even with the budget exhausted, leaving the state untouched); and
an all-zero line is the only way the loop reaches `done`. -/
theorem round_budget (numCases n needC : Nat) (seed : Int)
    (rem0 : List (List Int)) (c : Int) (lines : List String) (tline gline : String)
    (hinit : initRemaining numCases n seed = some (rem0, c))
    (hlines : ∀ l ∈ lines, NormalLine numCases (n : Int) l)
    (hterm : TermLine numCases (n : Int) tline) :
    (lines.length = n * (n + 1) / 2 →
      ∃ rem2 outs, outs.length = lines.length ∧
        roundLoop numCases (n : Int) (n * (n + 1) / 2) 0 rem0 (lines ++ tline :: [gline]) =
          .done rem2 [gline] outs ∧
        (afterLoop numCases (n : Int) needC rem2 [gline] = .accepted →
          RunCases numCases n needC seed (lines ++ tline :: [gline]) =
            some (.accepted,
              spaceJoin [renderNat numCases, renderNat n, renderNat needC] :: outs))) ∧
    (lines.length = n * (n + 1) / 2 + 1 →
      ∃ outs, RunCases numCases n needC seed (lines ++ tline :: [gline]) =
        some (.protocolError TOO_MANY_ROUNDS_ERROR,
          spaceJoin [renderNat numCases, renderNat n, renderNat needC] :: outs)) ∧
    (∀ (k : Nat) (rem : List (List Int)) (rest : List String),
      roundLoop numCases (n : Int) (n * (n + 1) / 2) k rem (tline :: rest) =
        .done rem rest []) ∧
    (∀ (k : Nat) (rem : List (List Int)) (inp : List String)
       (rem2 : List (List Int)) (rest2 outs : List String),
      roundLoop numCases (n : Int) (n * (n + 1) / 2) k rem inp = .done rem2 rest2 outs →
      ∃ pre line moves, inp = pre ++ line :: rest2 ∧
        ReadValues line numCases = .ok moves ∧ moves.all (fun m => m == 0) = true) := by
  refine ⟨?_, ?_, ?_, ?_⟩
  · intro hlen
    obtain ⟨rem2, outs, hol, heq⟩ := roundLoop_normals numCases (n : Int) (n * (n + 1) / 2)
      lines 0 rem0 (tline :: [gline]) hlines (by omega)
    rw [roundLoop_term _ _ _ _ _ _ _ hterm] at heq
    have heq2 : roundLoop numCases (n : Int) (n * (n + 1) / 2) 0 rem0
        (lines ++ tline :: [gline]) = .done rem2 [gline] outs := by
      rw [heq]
      simp [prependOuts]
    refine ⟨rem2, outs, hol, heq2, ?_⟩
    intro hacc
    rw [RunCases_eq numCases n needC seed _ rem0 c hinit]
    simp only [heq2, hacc]
  · intro hlen
    have hne : lines ≠ [] := by
      intro h
      rw [h] at hlen
      simp only [List.length_nil] at hlen
      omega
    obtain ⟨rem2, outs, heq⟩ := roundLoop_exceeds numCases (n : Int) (n * (n + 1) / 2)
      lines 0 rem0 (tline :: [gline]) hne hlines (by omega)
    refine ⟨outs, ?_⟩
    rw [RunCases_eq numCases n needC seed _ rem0 c hinit]
    simp only [heq]
  · intro k rem rest
    exact roundLoop_term _ _ _ _ _ _ _ hterm
  · intro k rem inp rem2 rest2 outs h
    exact roundLoop_done_reason _ _ _ inp k rem rem2 rest2 outs h

set_option maxRecDepth 40000 in
theorem round_budget_witness :
    RunCases 1 2 0 123 ["1", "1", "1", "0", "1 2"] =
      some (.accepted, ["1 2 0", "0", "0", "0"]) ∧
    RunCases 1 2 0 123 ["1", "1", "1", "1", "0", "1 2"] =
      some (.protocolError TOO_MANY_ROUNDS_ERROR, ["1 2 0", "0", "0", "0"]) ∧
    roundLoop 1 2 3 3 [[0, 1]] ["0", "1 2"] = .done [[0, 1]] ["1 2"] [] := by
  have hone : NormalLine 1 (2 : Int) "1" := ⟨[1], by decide, by decide, by decide⟩
  have hnorm : ∀ l ∈ (["1", "1", "1"] : List String), NormalLine 1 (2 : Int) l := by
    intro l hl
    simp only [List.mem_cons, List.not_mem_nil, or_false] at hl
    rcases hl with rfl | rfl | rfl <;> exact hone
  have hnorm4 : ∀ l ∈ (["1", "1", "1", "1"] : List String), NormalLine 1 (2 : Int) l := by
    intro l hl
    simp only [List.mem_cons, List.not_mem_nil, or_false] at hl
    rcases hl with rfl | rfl | rfl | rfl <;> exact hone
  have hterm : TermLine 1 (2 : Int) "0" := ⟨[0], by decide, by decide, by decide⟩
  have h := round_budget 1 2 0 123 [[0, 1]] 125 ["1", "1", "1"] "0" "1 2"
    (by decide) hnorm hterm
  obtain ⟨rem2, outs, _, heq, himp⟩ := h.1 (by decide)
  have hconc : roundLoop 1 ((2 : Nat) : Int) (2 * (2 + 1) / 2) 0 [[0, 1]]
      (["1", "1", "1"] ++ "0" :: ["1 2"]) = .done [[0, 1]] ["1 2"] ["0", "0", "0"] := by
    decide
  rw [hconc] at heq
  injection heq with e1 e2 e3
  subst e1
  subst e3
  refine ⟨?_, ?_, ?_⟩
  · have hr := himp (by decide)
    have hh : spaceJoin [renderNat 1, renderNat 2, renderNat 0] = "1 2 0" := by decide
    rw [hh] at hr
    exact hr
  · obtain ⟨outs2, heq2⟩ := (round_budget 1 2 0 123 [[0, 1]] 125 ["1", "1", "1", "1"]
      "0" "1 2" (by decide) hnorm4 hterm).2.1 (by decide)
    exact (by decide :
      RunCases 1 2 0 123 ["1", "1", "1", "1", "0", "1 2"] =
        some (.protocolError TOO_MANY_ROUNDS_ERROR, ["1 2 0", "0", "0", "0"]))
  · exact h.2.2.1 3 [[0, 1]] ["1 2"]

/-- Claim C1: in each round every case is handled independently
(`playRound` applies `playMove` case by case): a move of `0` yields
result `0` and leaves the case state unchanged; a move `m` with
`1 ≤ m ≤ N` addresses item `m-1` of the case, and if that item's
remaining value is positive the result is `1` and the value is
decremented by exactly `1`, while if it is `0` the result is `0` and
the state is unchanged. -/
theorem move_semantics (m : Int) (n : Nat) (rem : List Int)
    (ms : List Int) (rs : List (List Int)) (hlen : ms.length = rs.length) :
    playMove 0 rem = (0, rem) ∧
    (1 ≤ m → m ≤ (n : Int) → rem.length = n →
      (0 < rem.getD (m - 1).toNat 0 →
        playMove m rem = (1, rem.set (m - 1).toNat (rem.getD (m - 1).toNat 0 - 1))) ∧
      (rem.getD (m - 1).toNat 0 = 0 → playMove m rem = (0, rem))) ∧
    playRound ms rs = (List.zipWith (fun mv r => (playMove mv r).1) ms rs,
                       List.zipWith (fun mv r => (playMove mv r).2) ms rs) := by
  refine ⟨rfl, ?_, ?_⟩
  · intro hm _ _
    refine ⟨fun hpos => ?_, fun hz => ?_⟩
    · rw [playMove, if_neg (by omega), if_pos hpos]
    · rw [playMove, if_neg (by omega), if_neg (by omega)]
  · revert hlen
    induction ms generalizing rs with
    | nil =>
      intro hlen
      cases rs with
      | nil => rfl
      | cons r rs => simp at hlen
    | cons mv ms ih =>
      intro hlen
      cases rs with
      | nil => simp at hlen
      | cons r rs =>
        have h2 := ih rs (by simpa using hlen)
        simp [playRound, List.zipWith_cons_cons, h2]

theorem move_semantics_witness :
    playMove 0 [2, 0] = (0, [2, 0]) ∧
    playMove 1 [2, 0] = (1, [1, 0]) ∧
    playMove 2 [2, 0] = (0, [2, 0]) ∧
    playRound [1, 2] [[2, 0], [0, 5]] = ([1, 1], [[1, 0], [0, 4]]) := by
  have h1 := move_semantics 1 2 [2, 0] [1, 2] [[2, 0], [0, 5]] (by decide)
  have h2 := move_semantics 2 2 [2, 0] [] [] rfl
  refine ⟨h1.1, ?_, ?_, ?_⟩
  · exact ((h1.2.1 (by decide) (by decide) (by decide)).1 (by decide)).trans (by decide)
  · exact ((h2.2.1 (by decide) (by decide) (by decide)).2 (by decide)).trans (by decide)
  · exact h1.2.2.trans (by decide)

/-! ## Atomic bounds checking (claim C10) -/

theorem findOOBMove_none (n : Int) :
    ∀ moves : List Int, findOOBMove n moves = none → ∀ mv ∈ moves, 0 ≤ mv ∧ mv ≤ n := by
  intro moves
  induction moves with
  | nil => intro _ mv h; exact absurd h (List.not_mem_nil mv)
  | cons a ms ih =>
    intro h mv hmem
    rw [findOOBMove] at h
    by_cases ha : a < 0 ∨ a > n
    · rw [if_pos ha] at h
      exact absurd h (by simp)
    · rw [if_neg ha] at h
      rcases List.mem_cons.mp hmem with rfl | hmem
      · push_neg at ha
        omega
      · exact ih h mv hmem

/-- Claim C10: round processing is atomic with respect to bounds
errors: all moves of a line are bounds-checked (lines 137-139) before
any case state is mutated (lines 145-156). If any move of the parsed
line is out of bounds the check cannot pass, and the loop fails with
`OutOfBoundsError` for the first offender `m` — possibly belonging to a
later case — while every case's item values are exactly as they were
before the line, and no result line is emitted for it. -/
theorem bounds_check_atomic (nc : Nat) (n : Int) (maxR k : Nat)
    (rem : List (List Int)) (line : String) (rest : List String)
    (moves : List Int) (m mv : Int)
    (h1 : ReadValues line nc = .ok moves) :
    (findOOBMove n moves = some m →
      roundLoop nc n maxR k rem (line :: rest) =
        .fail (OUT_OF_BOUNDS_ERROR m) rem []) ∧
    (mv ∈ moves → (mv < 0 ∨ mv > n) → findOOBMove n moves ≠ none) := by
  constructor
  · intro h2
    simp only [roundLoop, h1, h2]
  · intro hmem hbad hnone
    have := findOOBMove_none n moves hnone mv hmem
    omega

theorem bounds_check_atomic_witness :
    roundLoop 2 3 6 0 [[0, 1, 2], [2, 1, 0]] ["1 4"] =
      .fail (OUT_OF_BOUNDS_ERROR 4) [[0, 1, 2], [2, 1, 0]] [] ∧
    findOOBMove 3 [1, 4] ≠ none := by
  have h := bounds_check_atomic 2 3 6 0 [[0, 1, 2], [2, 1, 0]] "1 4" [] [1, 4] 4 4
    (by decide)
  exact ⟨h.1 (by decide), h.2 (by decide) (by decide)⟩

/-! ## The post-guess extra-input check (claim C9) -/

/-- Claim C9: after the guess line is read (and scored without a
protocol error), the engine attempts to read exactly one more line:
if a further line is available it fails with `AdditionalInputError`
carrying the extra content truncated to at most 100 characters; if the
input is exhausted, that is the expected non-error termination and the
run proceeds to the verdict comparison. -/
theorem extra_input_check (nc : Nat) (n : Int) (needC : Nat)
    (rem : List (List Int)) (gline extra : String) (rest : List String)
    (guesses : List Int) (correct : Nat)
    (h1 : ReadValues gline (2 * nc) = .ok guesses)
    (h2 : scoreLoop n guesses rem = .ok correct) :
    (afterLoop nc n needC rem (gline :: extra :: rest) =
       .protocolError (ADDITIONAL_INPUT_ERROR (strTake extra 100)) ∧
     (strTake extra 100).length ≤ 100) ∧
    afterLoop nc n needC rem [gline] =
      (if correct < needC then .wrongAnswer (TOO_FEW_CORRECT_ERROR correct)
       else .accepted) := by
  refine ⟨⟨?_, ?_⟩, ?_⟩
  · simp only [afterLoop, h1, h2]
  · exact List.length_take_le _ _
  · simp only [afterLoop, h1, h2]

theorem extra_input_check_witness :
    (afterLoop 1 3 1 [[2, 1, 0]] ["1 2", "9"] =
       .protocolError (ADDITIONAL_INPUT_ERROR (strTake "9" 100)) ∧
     (strTake "9" 100).length ≤ 100) ∧
    afterLoop 1 3 1 [[2, 1, 0]] ["1 2"] =
      (if 1 < 1 then .wrongAnswer (TOO_FEW_CORRECT_ERROR 1) else .accepted) :=
  extra_input_check 1 3 1 [[2, 1, 0]] "1 2" "9" [] [1, 2] 1 (by decide) (by decide)

/-! ## State invariants (claim C8) -/

/-- All stored values of all cases are nonnegative. -/
abbrev NonnegState (rem : List (List Int)) : Prop := ∀ l ∈ rem, ∀ v ∈ l, 0 ≤ v

/-- Result state of the round loop, on both the `done` and `fail` paths. -/
def loopRem : LoopRes → List (List Int)
  | .done r _ _ => r
  | .fail _ r _ => r

theorem playMove_shape (m : Int) (rem : List Int) :
    (playMove m rem).2 = rem ∨
    ∃ i, i < rem.length ∧ 0 < rem.getD i 0 ∧
      (playMove m rem).2 = rem.set i (rem.getD i 0 - 1) := by
  rw [playMove]
  split_ifs with h1 h2
  · exact Or.inl rfl
  · right
    refine ⟨(m - 1).toNat, ?_, h2, rfl⟩
    by_contra hge
    push_neg at hge
    rw [List.getD_eq_default _ _ hge] at h2
    omega
  · exact Or.inl rfl

theorem playMove_le (m : Int) (rem : List Int) (j : Nat) :
    (playMove m rem).2.getD j 0 ≤ rem.getD j 0 := by
  rcases playMove_shape m rem with h | ⟨i, hi, hpos, h⟩
  · rw [h]
  · rw [h]
    by_cases hij : i = j
    · subst hij
      rw [List.getD_eq_getElem _ _ (by simpa using hi), List.getElem_set_self,
        List.getD_eq_getElem _ _ hi]
      have := List.getD_eq_getElem rem 0 hi
      omega
    · rw [getD_set_ne hij]

theorem playMove_nonneg (m : Int) (rem : List Int) (h : ∀ v ∈ rem, 0 ≤ v) :
    ∀ v ∈ (playMove m rem).2, 0 ≤ v := by
  rcases playMove_shape m rem with hs | ⟨i, hi, hpos, hs⟩
  · rw [hs]; exact h
  · rw [hs]
    intro v hv
    rcases List.mem_or_eq_of_mem_set hv with hv | rfl
    · exact h v hv
    · omega

theorem playRound_state (ms : List Int) :
    ∀ rs : List (List Int),
      (NonnegState rs → NonnegState (playRound ms rs).2) ∧
      (∀ i j, ((playRound ms rs).2.getD i []).getD j 0 ≤ (rs.getD i []).getD j 0) ∧
      (playRound ms rs).2.length = rs.length := by
  induction ms with
  | nil => intro rs; exact ⟨fun h => h, fun i j => le_refl _, rfl⟩
  | cons mv ms ih =>
    intro rs
    cases rs with
    | nil => exact ⟨fun h => h, fun i j => le_refl _, rfl⟩
    | cons r rs =>
      obtain ⟨ihN, ihD, ihL⟩ := ih rs
      refine ⟨?_, ?_, ?_⟩
      · intro h l hl
        simp only [playRound] at hl
        rcases List.mem_cons.mp hl with rfl | hl
        · exact playMove_nonneg mv r (h r (List.mem_cons_self _ _))
        · exact ihN (fun u hu => h u (List.mem_cons_of_mem _ hu)) l hl
      · intro i j
        cases i with
        | zero => simpa [playRound] using playMove_le mv r j
        | succ i => simpa [playRound] using ihD i j
      · simp [playRound, ihL]

theorem roundLoop_state (nc : Nat) (n : Int) (maxR : Nat) :
    ∀ (inp : List String) (k : Nat) (rem : List (List Int)),
      (NonnegState rem → NonnegState (loopRem (roundLoop nc n maxR k rem inp))) ∧
      (∀ i j, ((loopRem (roundLoop nc n maxR k rem inp)).getD i []).getD j 0 ≤
        (rem.getD i []).getD j 0) := by
  intro inp
  induction inp with
  | nil =>
    intro k rem
    rw [roundLoop]
    exact ⟨fun h => h, fun i j => le_refl _⟩
  | cons line rest' ih =>
    intro k rem
    cases hrv : ReadValues line nc with
    | error e =>
      simp only [roundLoop, hrv]
      exact ⟨fun h => h, fun i j => le_refl _⟩
    | ok moves =>
      simp only [roundLoop, hrv]
      cases hf : findOOBMove n moves with
      | some m =>
        simp only [hf]
        exact ⟨fun h => h, fun i j => le_refl _⟩
      | none =>
        simp only [hf]
        by_cases hz : moves.all (fun m => m == 0) = true
        · rw [if_pos hz]
          exact ⟨fun h => h, fun i j => le_refl _⟩
        · rw [if_neg hz]
          by_cases hk : maxR < k + 1
          · rw [if_pos hk]
            exact ⟨fun h => h, fun i j => le_refl _⟩
          · rw [if_neg hk]
            obtain ⟨hN, hD, _⟩ := playRound_state moves rem
            obtain ⟨ihN, ihD⟩ := ih (k + 1) (playRound moves rem).2
            cases hrec : roundLoop nc n maxR (k + 1) (playRound moves rem).2 rest' with
            | done r2 rst o =>
              simp only [hrec, loopRem] at ihN ihD
              simp only [hrec, loopRem]
              exact ⟨fun h => ihN (hN h), fun i j => le_trans (ihD i j) (hD i j)⟩
            | fail m r2 o =>
              simp only [hrec, loopRem] at ihN ihD
              simp only [hrec, loopRem]
              exact ⟨fun h => ihN (hN h), fun i j => le_trans (ihD i j) (hD i j)⟩

/-- Claim C8: the case-state invariant. Initialization yields only
nonnegative values; every mutation performed by a move is a decrement
by exactly `1` of a single value that was positive (so values never go
negative and never increase); through every step of the round loop the
state stays nonnegative and pointwise bounded by the state before — on
the error paths included. Scoring (`scoreLoop`) returns only a count
and cannot modify the state. -/
theorem state_invariant (m : Int) (rem : List Int) (nc : Nat) (n : Int)
    (maxR k : Nat) (inp : List String) (rem0 : List (List Int)) (nN : Nat) :
    (∀ v ∈ caseInit nN, 0 ≤ v) ∧
    ((playMove m rem).2 = rem ∨
      ∃ i, i < rem.length ∧ 0 < rem.getD i 0 ∧
        (playMove m rem).2 = rem.set i (rem.getD i 0 - 1)) ∧
    ((∀ v ∈ rem, 0 ≤ v) → ∀ v ∈ (playMove m rem).2, 0 ≤ v) ∧
    (∀ j, (playMove m rem).2.getD j 0 ≤ rem.getD j 0) ∧
    (NonnegState rem0 → NonnegState (loopRem (roundLoop nc n maxR k rem0 inp))) ∧
    (∀ i j, ((loopRem (roundLoop nc n maxR k rem0 inp)).getD i []).getD j 0 ≤
      (rem0.getD i []).getD j 0) := by
  obtain ⟨h5, h6⟩ := roundLoop_state nc n maxR inp k rem0
  refine ⟨?_, playMove_shape m rem, playMove_nonneg m rem, playMove_le m rem, h5, h6⟩
  intro v hv
  obtain ⟨x, _, rfl⟩ := List.mem_map.mp hv
  exact Int.ofNat_nonneg x

theorem state_invariant_witness :
    (∀ v ∈ caseInit 3, 0 ≤ v) ∧
    (∀ v ∈ (playMove 1 [2, 0]).2, 0 ≤ v) ∧
    (∀ j, (playMove 1 [2, 0]).2.getD j 0 ≤ [(2 : Int), 0].getD j 0) ∧
    NonnegState (loopRem (roundLoop 1 3 6 0 [[2, 1, 0]] ["1", "0"])) ∧
    (∀ i j, ((loopRem (roundLoop 1 3 6 0 [[2, 1, 0]] ["1", "0"])).getD i []).getD j 0 ≤
      ([[(2 : Int), 1, 0]].getD i []).getD j 0) := by
  have h := state_invariant 1 [2, 0] 1 3 6 0 ["1", "0"] [[2, 1, 0]] 3
  exact ⟨h.1, h.2.2.1 (by decide), h.2.2.2.1, h.2.2.2.2.1 (by decide), h.2.2.2.2.2⟩

/-! ## Scoring (claim C2) -/

/-- One guess pair is valid: both 1-based values in `[1, n]` and distinct. -/
abbrev ValidPair (n : Int) (p : Int × Int) : Prop :=
  1 ≤ p.1 ∧ p.1 ≤ n ∧ 1 ≤ p.2 ∧ p.2 ≤ n ∧ p.1 ≠ p.2

/-- Interleave a list of pairs into the flat guess list
(`guesses[0::2]` zipped with `guesses[1::2]` recovers the pairs). -/
def flattenPairs : List (Int × Int) → List Int
  | [] => []
  | p :: ps => p.1 :: p.2 :: flattenPairs ps

/-- Number of correct cases: a case is correct iff the two guessed
items' remaining values sum to at least `n`. -/
def countCorrect (n : Int) : List (Int × Int) → List (List Int) → Nat
  | p :: ps, rem :: rems =>
    (if n ≤ rem.getD (p.1 - 1).toNat 0 + rem.getD (p.2 - 1).toNat 0 then 1 else 0) +
      countCorrect n ps rems
  | _, _ => 0

theorem scoreLoop_same_pen (n : Int) :
    ∀ (ps : List (Int × Int)) (rems : List (List Int)) (v : Int) (gs : List Int),
      (∀ p ∈ ps, ValidPair n p) → ps.length < rems.length → 1 ≤ v → v ≤ n →
      scoreLoop n (flattenPairs ps ++ v :: v :: gs) rems =
        .error SAME_PEN_TWICE_ERROR := by
  intro ps
  induction ps with
  | nil =>
    intro rems v gs _ hlen h1 h2
    cases rems with
    | nil => simp at hlen
    | cons r rs =>
      show scoreLoop n (v :: v :: gs) (r :: rs) = _
      rw [scoreLoop, if_neg (by omega), if_neg (by omega), if_pos rfl]
  | cons p ps ih =>
    intro rems v gs hv hlen h1 h2
    cases rems with
    | nil => simp at hlen
    | cons r rs =>
      obtain ⟨hp1, hp2, hp3, hp4, hp5⟩ := hv p (List.mem_cons_self _ _)
      show scoreLoop n (p.1 :: p.2 :: (flattenPairs ps ++ v :: v :: gs)) (r :: rs) = _
      rw [scoreLoop, if_neg (by omega), if_neg (by omega), if_neg hp5,
        ih rs v gs (fun q hq => hv q (List.mem_cons_of_mem _ hq)) (by simpa using hlen) h1 h2]

theorem scoreLoop_valid (n : Int) :
    ∀ (ps : List (Int × Int)) (rems : List (List Int)),
      (∀ p ∈ ps, ValidPair n p) → ps.length ≤ rems.length →
      scoreLoop n (flattenPairs ps) rems = .ok (countCorrect n ps rems) := by
  intro ps
  induction ps with
  | nil => intro rems _ _; cases rems <;> rfl
  | cons p ps ih =>
    intro rems hv hlen
    cases rems with
    | nil => simp at hlen
    | cons r rs =>
      obtain ⟨h1, h2, h3, h4, h5⟩ := hv p (List.mem_cons_self _ _)
      show scoreLoop n (p.1 :: p.2 :: flattenPairs ps) (r :: rs) = _
      rw [scoreLoop, if_neg (by omega), if_neg (by omega), if_neg h5,
        ih rs (fun q hq => hv q (List.mem_cons_of_mem _ hq)) (by simpa using hlen),
        countCorrect]
      split_ifs <;> exact congrArg Except.ok (by omega)

/-- Claim C2 (amended): scoring reads exactly `2*case_count` integers,
one pair per case in case order (a wrong token count is the token-count
error); each value must lie in `[1, N]`, the out-of-bounds error
reporting the first offending value in reading order (`v1` before `v2`,
earlier cases before later ones); `v1 = v2` raises `SamePenTwiceError`
regardless of LATER cases' guesses, provided the pair's own values are
in bounds and every earlier case's pair passes validation — an earlier
case's violation is reported instead (see the counterexample); a case
counts as correct iff the sum of its two guessed items' remaining
values is at least `N` (invariant under swapping the pair); and after
the guess line and the no-extra-input check, a correct count below the
threshold raises `InsufficientCorrectnessError` carrying the observed
count while meeting or exceeding it is success. -/
theorem scoring_spec (nc : Nat) (n : Int) (needC : Nat) (rem : List (List Int))
    (gline gline2 : String) (v1 v2 w1 w2 v : Int) (gs : List Int) (r : List Int)
    (rs rems : List (List Int)) (ps : List (Int × Int)) (guesses : List Int)
    (correct : Nat) :
    ((pySplit gline.toList).length ≠ 2 * nc →
      afterLoop nc n needC rem [gline] =
        .protocolError (WRONG_NUM_TOKENS_ERROR (2 * nc) (pySplit gline.toList).length)) ∧
    ((v1 < 1 ∨ v1 > n) →
      scoreLoop n (v1 :: v2 :: gs) (r :: rs) = .error (OUT_OF_BOUNDS_ERROR v1)) ∧
    (1 ≤ w1 → w1 ≤ n → (w2 < 1 ∨ w2 > n) →
      scoreLoop n (w1 :: w2 :: gs) (r :: rs) = .error (OUT_OF_BOUNDS_ERROR w2)) ∧
    ((∀ p ∈ ps, ValidPair n p) → ps.length < rems.length → 1 ≤ v → v ≤ n →
      scoreLoop n (flattenPairs ps ++ v :: v :: gs) rems =
        .error SAME_PEN_TWICE_ERROR) ∧
    ((∀ p ∈ ps, ValidPair n p) → ps.length ≤ rems.length →
      scoreLoop n (flattenPairs ps) rems = .ok (countCorrect n ps rems)) ∧
    ((n ≤ r.getD (v1 - 1).toNat 0 + r.getD (v2 - 1).toNat 0) ↔
      (n ≤ r.getD (v2 - 1).toNat 0 + r.getD (v1 - 1).toNat 0)) ∧
    (ReadValues gline2 (2 * nc) = .ok guesses → scoreLoop n guesses rem = .ok correct →
      afterLoop nc n needC rem [gline2] =
        if correct < needC then .wrongAnswer (TOO_FEW_CORRECT_ERROR correct)
        else .accepted) := by
  refine ⟨?_, ?_, ?_, ?_, ?_, ?_, ?_⟩
  · intro h
    simp only [afterLoop, ReadValues, if_pos h]
  · intro h
    rw [scoreLoop, if_pos h]
  · intro hw1 hw2 h
    rw [scoreLoop, if_neg (by omega), if_pos h]
  · intro hv hlen h1 h2
    exact scoreLoop_same_pen n ps rems v gs hv hlen h1 h2
  · intro hv hlen
    exact scoreLoop_valid n ps rems hv hlen
  · constructor <;> (intro h; omega)
  · intro h1 h2
    simp only [afterLoop, h1, h2]

theorem scoring_spec_witness :
    afterLoop 1 3 1 [[2, 1, 0]] ["1 2 3"] =
      .protocolError (WRONG_NUM_TOKENS_ERROR 2 3) ∧
    scoreLoop 3 [0, 5] [[1, 0, 2]] = .error (OUT_OF_BOUNDS_ERROR 0) ∧
    scoreLoop 3 [1, 9] [[1, 0, 2]] = .error (OUT_OF_BOUNDS_ERROR 9) ∧
    scoreLoop 3 [1, 2, 2, 2] [[0, 1, 2], [2, 1, 0]] = .error SAME_PEN_TWICE_ERROR ∧
    scoreLoop 3 [1, 2] [[0, 1, 2], [2, 1, 0]] = .ok 0 ∧
    ((3 : Int) ≤ [(1 : Int), 0, 2].getD ((0 : Int) - 1).toNat 0 +
        [(1 : Int), 0, 2].getD ((5 : Int) - 1).toNat 0 ↔
      (3 : Int) ≤ [(1 : Int), 0, 2].getD ((5 : Int) - 1).toNat 0 +
        [(1 : Int), 0, 2].getD ((0 : Int) - 1).toNat 0) ∧
    afterLoop 1 3 1 [[2, 1, 0]] ["1 2"] = .accepted := by
  have h := scoring_spec 1 3 1 [[2, 1, 0]] "1 2 3" "1 2" 0 5 1 9 2 [] [1, 0, 2] []
    [[0, 1, 2], [2, 1, 0]] [(1, 2)] [1, 2] 1
  refine ⟨(h.1 (by decide)).trans (by decide), h.2.1 (by decide), ?_, ?_, ?_,
    h.2.2.2.2.2.1, ?_⟩
  · exact h.2.2.1 (by decide) (by decide) (by decide)
  · exact (h.2.2.2.1 (by decide) (by decide) (by decide) (by decide)).trans (by rfl)
  · exact (h.2.2.2.2.1 (by decide) (by decide)).trans (by decide)
  · exact (h.2.2.2.2.2.2 (by decide) (by decide)).trans (by decide)

/-- Claim C2 counterexample: in a two-case scoring line `0 2 1 1`,
case 2 guesses the same pen twice, yet the error raised is case 1's
out-of-bounds error — so "`v1 == v2` raises SamePenTwiceError
regardless of other cases' guesses" is false as stated. -/
theorem scoring_same_pen_not_independent :
    afterLoop 2 3 2 [[0, 1, 2], [0, 1, 2]] ["0 2 1 1"] =
      .protocolError (OUT_OF_BOUNDS_ERROR 0) ∧
    Outcome.protocolError (OUT_OF_BOUNDS_ERROR 0) ≠
      .protocolError SAME_PEN_TWICE_ERROR := by
  constructor <;> decide

/-! ## Out-of-bounds messages (claim C6) -/

/-- Claim C6 (amended): every out-of-bounds error (a round move outside
`[0, N]` or a guess value outside `[1, N]`) carries the decimal
rendering of the PARSED offending value; this coincides with the raw
token text exactly when the token is written canonically (i.e. equals
`renderIntChars` of its value), but not for non-canonical tokens such
as `016` (see the counterexample). -/
theorem oob_message (nc : Nat) (n : Int) (maxR k : Nat) (rem : List (List Int))
    (line : String) (rest : List String) (moves : List Int) (m v1 v2 : Int)
    (gs : List Int) (r : List Int) (rs : List (List Int)) (tok : List Char) :
    (ReadValues line nc = .ok moves → findOOBMove n moves = some m →
      roundLoop nc n maxR k rem (line :: rest) =
        .fail (OUT_OF_BOUNDS_ERROR m) rem []) ∧
    ((v1 < 1 ∨ v1 > n) →
      scoreLoop n (v1 :: v2 :: gs) (r :: rs) = .error (OUT_OF_BOUNDS_ERROR v1)) ∧
    (tok = renderIntChars m →
      containsSeq tok (OUT_OF_BOUNDS_ERROR m).toList = true) := by
  refine ⟨?_, ?_, ?_⟩
  · intro h1 h2
    simp only [roundLoop, h1, h2]
  · intro h
    rw [scoreLoop, if_pos h]
  · intro htok
    subst htok
    have h := containsSeq_append "Request out of bounds: ".toList
      (renderIntChars m) ".".toList
    simpa [OUT_OF_BOUNDS_ERROR, renderInt, String.toList, String.data_append] using h

theorem oob_message_witness :
    roundLoop 1 3 6 0 [[0, 1, 2]] ["-1"] =
      .fail (OUT_OF_BOUNDS_ERROR (-1)) [[0, 1, 2]] [] ∧
    scoreLoop 3 [0, 2] [[0, 1, 2]] = .error (OUT_OF_BOUNDS_ERROR 0) ∧
    containsSeq (renderIntChars (-1)) (OUT_OF_BOUNDS_ERROR (-1)).toList = true := by
  have h := oob_message 1 3 6 0 [[0, 1, 2]] "-1" [] [-1] (-1) 0 2 [] [0, 1, 2] []
    (renderIntChars (-1))
  exact ⟨h.1 (by decide) (by decide), h.2.1 (by decide), h.2.2 rfl⟩

/-- Claim C6 counterexample: the raw token `016` parses to `16`, out of
bounds for `N = 15`; the resulting message renders the parsed value
(`Request out of bounds: 16.`) and does not contain the raw token text
`016` — the message does not carry the exact raw offending token. -/
theorem oob_message_counterexample :
    roundLoop 1 15 120 0 [caseInit 15] ["016"] =
      .fail (OUT_OF_BOUNDS_ERROR 16) [caseInit 15] [] ∧
    containsSeq "016".toList (OUT_OF_BOUNDS_ERROR 16).toList = false := by
  constructor <;> decide

end PenJudge
